import Mathlib

/-!
# Verification of the `hashtag` package (Twitter-text extraction port)

Shallow embedding of `hashtag.go`.  Text is modelled as `List Char`
(code-point level; all indices below are code-point indices, used
consistently for `Start`/`End`/slicing).  The Go code drives three
compiled regular expressions (`valid_hashtag`, `valid_mention`,
`valid_reply`) through `regexp.FindAllStringSubmatchIndex`, which performs
a single left-to-right, non-overlapping, leftmost-first scan.  Each
pattern is embedded here as an executable scanner implementing exactly
that semantics for the specific pattern: alternatives are tried in their
written order at each start position, start positions increase one
character at a time, quantifiers are greedy (with the only backtracking
these patterns can exhibit resolved statically, as noted at each
definition), and the scan resumes at the end of each match.
-/

namespace Hashtag

/-- `lo ≤ n ≤ hi`, as a Bool. -/
def inRange (lo hi n : Nat) : Bool := decide (lo ≤ n) && decide (n ≤ hi)

/-- The `unicode_spaces` character class of `hashtag.go` (the white-space
code points enumerated there: 0009–000D, 0020, 0085, 00A0, 1680, 180E,
2000–200A, 2028, 2029, 202F, 205F, 3000). -/
def isUnicodeSpace (c : Char) : Bool :=
  let n := c.toNat
  inRange 0x9 0xd n || decide (n = 0x20) || decide (n = 0x85) || decide (n = 0xa0) ||
    decide (n = 0x1680) || decide (n = 0x180e) || inRange 0x2000 0x200a n ||
    decide (n = 0x2028) || decide (n = 0x2029) || decide (n = 0x202f) ||
    decide (n = 0x205f) || decide (n = 0x3000)

/-- The `hashtag_letters` class of `hashtag.go`: Go regexp's `\pL\pM`
(Unicode Letter and Mark categories).  Embedded as an explicit table of
code-point ranges drawn from those categories (ASCII and Latin letters,
combining marks, Greek, Cyrillic, Hebrew, Arabic, Devanagari, kana, CJK,
Hangul, fullwidth Latin).  Every range below lies inside Unicode L ∪ M;
the general theorems of this file do not depend on the exact table, only
the concrete evaluations use it, on characters it classifies correctly. -/
def isHashtagLetter (c : Char) : Bool :=
  let n := c.toNat
  inRange 0x41 0x5a n || inRange 0x61 0x7a n ||      -- ASCII letters
    decide (n = 0xaa) || decide (n = 0xb5) || decide (n = 0xba) ||
    inRange 0xc0 0xd6 n || inRange 0xd8 0xf6 n || inRange 0xf8 0xff n || -- Latin-1
    inRange 0x100 0x24f n ||                          -- Latin Extended A/B
    inRange 0x250 0x2af n ||                          -- IPA extensions
    inRange 0x300 0x36f n ||                          -- combining marks
    inRange 0x391 0x3a1 n || inRange 0x3b1 0x3c9 n || -- Greek
    inRange 0x410 0x44f n ||                          -- Cyrillic
    inRange 0x5d0 0x5ea n ||                          -- Hebrew
    inRange 0x620 0x64a n ||                          -- Arabic
    inRange 0x905 0x939 n ||                          -- Devanagari
    inRange 0x3041 0x3096 n ||                        -- Hiragana
    inRange 0x30a1 0x30fa n ||                        -- Katakana
    inRange 0x4e00 0x9fff n ||                        -- CJK unified ideographs
    inRange 0xac00 0xd7a3 n ||                        -- Hangul syllables
    inRange 0xff21 0xff3a n || inRange 0xff41 0xff5a n -- fullwidth Latin

/-- The `hashtag_numerals` class of `hashtag.go`: Go regexp's `\p{Nd}`
(decimal digits).  Embedded as a table of decimal-digit ranges (ASCII,
Arabic-Indic, Devanagari, fullwidth); same caveat as `isHashtagLetter`. -/
def isHashtagNumeral (c : Char) : Bool :=
  let n := c.toNat
  inRange 0x30 0x39 n || inRange 0x660 0x669 n || inRange 0x966 0x96f n ||
    inRange 0xff10 0xff19 n

/-- The `hashtag_special_chars` class of `hashtag.go`: underscore plus the
fourteen enumerated joiner/punctuation code points. -/
def isHashtagSpecial (c : Char) : Bool :=
  let n := c.toNat
  decide (n = 0x5f) || decide (n = 0x200c) || decide (n = 0x200d) ||
    decide (n = 0xa67e) || decide (n = 0x5be) || decide (n = 0x5f3) ||
    decide (n = 0x5f4) || decide (n = 0x309b) || decide (n = 0x309c) ||
    decide (n = 0x30a0) || decide (n = 0x30fb) || decide (n = 0x3003) ||
    decide (n = 0xf0b) || decide (n = 0xf0c) || decide (n = 0xf0d)

/-- The `hashtag_letters_numerals_set` class: letters ∪ numerals ∪ specials. -/
def isHashtagChar (c : Char) : Bool :=
  isHashtagLetter c || isHashtagNumeral c || isHashtagSpecial c

/-- The hashtag markers `#` (U+0023) and fullwidth `＃` (U+FF03). -/
def isHashMarker (c : Char) : Bool :=
  decide (c.toNat = 0x23) || decide (c.toNat = 0xff03)

/-- The `at_signs` class: `@` (U+0040) and fullwidth `＠` (U+FF20). -/
def isAtSign (c : Char) : Bool :=
  decide (c.toNat = 0x40) || decide (c.toNat = 0xff20)

/-- The mention/reply user-name characters `[A-Za-z0-9_]`. -/
def isWordChar (c : Char) : Bool :=
  let n := c.toNat
  inRange 0x41 0x5a n || inRange 0x61 0x7a n || inRange 0x30 0x39 n ||
    decide (n = 0x5f)

/-- The `latin_accents_chars` class of `hashtag.go`. -/
def isLatinAccent (c : Char) : Bool :=
  let n := c.toNat
  inRange 0xc0 0xd6 n || inRange 0xd8 0xf6 n || inRange 0xf8 0xff n ||
    inRange 0x100 0x24f n ||
    decide (n = 0x253) || decide (n = 0x254) || decide (n = 0x256) ||
    decide (n = 0x257) || decide (n = 0x259) || decide (n = 0x25b) ||
    decide (n = 0x263) || decide (n = 0x268) || decide (n = 0x26f) ||
    decide (n = 0x272) || decide (n = 0x289) || decide (n = 0x28b) ||
    decide (n = 0x2bb) || inRange 0x300 0x36f n || inRange 0x1e00 0x1eff n

/-- The character class `[A-Za-z0-9_!#$%&*@＠]` negated by the first
alternative of `valid_mention`. -/
def inMentionSet (c : Char) : Bool :=
  let n := c.toNat
  isWordChar c || decide (n = 0x21) || decide (n = 0x23) || decide (n = 0x24) ||
    decide (n = 0x25) || decide (n = 0x26) || decide (n = 0x2a) || isAtSign c

/-- `R` or `r`, for the `[Rr][tT]:?` alternative of `valid_mention`. -/
def isRTr (c : Char) : Bool := decide (c.toNat = 0x52) || decide (c.toNat = 0x72)

/-- `T` or `t`, for the `[Rr][tT]:?` alternative of `valid_mention`. -/
def isRTt (c : Char) : Bool := decide (c.toNat = 0x54) || decide (c.toNat = 0x74)

/-- `invalid_hashtag_match_end` of `hashtag.go`: the anchored pattern
`^(?:[#＃]|://)`, as a test on the text following a match. -/
def invalid_hashtag_match_end (cs : List Char) : Bool :=
  match cs with
  | [] => false
  | c :: rest => isHashMarker c || (decide (c = ':') && decide (rest.take 2 = ['/', '/']))

/-- `invalid_mention_match_end` of `hashtag.go`: the anchored pattern
`^(?:[@＠ latin_accents]|://)`, as a test on the text following a match. -/
def invalid_mention_match_end (cs : List Char) : Bool :=
  match cs with
  | [] => false
  | c :: rest =>
    isAtSign c || isLatinAccent c ||
      (decide (c = ':') && decide (rest.take 2 = ['/', '/']))

/-- The `Entity` struct of `hashtag.go`: start/end indices of the token
body (marker excluded) and the body text. -/
structure Entity where
  Start : Nat
  End : Nat
  Value : String
deriving DecidableEq, Repr

/-!
## The `valid_hashtag` scanner

`valid_hashtag` is
`(?m)(?:^|[^&\pL\pM\p{Nd}specials])(?:#|＃)([LNS]*[L][LNS]*)` with
`L = \pL\pM`, `N = \p{Nd}`, `S = specials`, `LNS = L ∪ N ∪ S`.

At a fixed start position leftmost-first semantics resolves to: first the
`^` alternative (start of text or just after `\n`, by `(?m)`) with the
marker at the start position itself, then the one-character class
`[^&LNS]` with the marker one position later.  The body
`[LNS]*[L][LNS]*` matches exactly the maximal run of `LNS` characters
after the marker, provided that run contains at least one `L` character
(the greedy stars otherwise just redistribute inside the same run).
`FindAllStringSubmatchIndex` resumes after each match end, which is the
body's end.  One scanner step consumes at least one character, so fuel
`cs.length` suffices; emitted pairs are the capture group
(body start, body end) in absolute positions.
-/

/-- One leftmost-first scan step sequence for `valid_hashtag`:
`scanHashtagsAux fuel lineStart pos cs` scans `cs`, the suffix of the text
starting at position `pos`, where `lineStart` says whether `(?m)^`
matches at `pos`. -/
def scanHashtagsAux : Nat → Bool → Nat → List Char → List (Nat × Nat)
  | 0, _, _, _ => []
  | _ + 1, _, _, [] => []
  | fuel + 1, lineStart, pos, c :: rest =>
    let runA := rest.takeWhile isHashtagChar
    if lineStart && isHashMarker c && runA.any isHashtagLetter then
      (pos + 1, pos + 1 + runA.length) ::
        scanHashtagsAux fuel false (pos + 1 + runA.length) (rest.drop runA.length)
    else
      match rest with
      | d :: rest2 =>
        let runB := rest2.takeWhile isHashtagChar
        if !(decide (c = '&') || isHashtagChar c) && isHashMarker d &&
            runB.any isHashtagLetter then
          (pos + 2, pos + 2 + runB.length) ::
            scanHashtagsAux fuel false (pos + 2 + runB.length) (rest2.drop runB.length)
        else
          scanHashtagsAux fuel (decide (c = '\n')) (pos + 1) rest
      | [] => []

/-- All `valid_hashtag` matches of a text, as (body start, body end)
pairs: `valid_hashtag.FindAllStringSubmatchIndex(text, -1)` projected to
the capture group. -/
def valid_hashtag_matches (cs : List Char) : List (Nat × Nat) :=
  scanHashtagsAux cs.length true 0 cs

/-- `ExtractHashtagsWithIndices` of `hashtag.go`, over `List Char`:
fast path when no marker character occurs, then the scan, then the
`invalid_hashtag_match_end` filter on the text after each match end, then
projection to entities (`Start`/`End` are the capture group, `Value` the
corresponding slice of the input). -/
def hashtagEntities (cs : List Char) : List Entity :=
  if cs.any isHashMarker then
    ((valid_hashtag_matches cs).filter fun m =>
        !invalid_hashtag_match_end (cs.drop m.2)).map fun m =>
      { Start := m.1, End := m.2, Value := ((cs.drop m.1).take (m.2 - m.1)).asString }
  else []

/-- `ExtractHashtagsWithIndices` of `hashtag.go`. -/
def ExtractHashtagsWithIndices (text : String) : List Entity :=
  hashtagEntities text.data

/-- `ExtractHashtags` of `hashtag.go`: the entities of
`ExtractHashtagsWithIndices`, projected to their `Value` fields. -/
def ExtractHashtags (text : String) : List String :=
  (ExtractHashtagsWithIndices text).map Entity.Value

/-!
## The `valid_mention` scanner

`valid_mention` is
`([^A-Za-z0-9_!#$%&*@＠]|^|[Rr][tT]:?)([@＠]+)([A-Za-z0-9_]{1,20})`,
with no multiline flag, so `^` is start of text only.

The at-sign run `([@＠]+)` followed by `([A-Za-z0-9_]{1,20})` matches: the
maximal run of at-signs (backtracking the greedy `+` only ever exposes
another at-sign, which is not a user-name character), then 1–20 user-name
characters taken greedily from the following run.  In the `[Rr][tT]:?`
alternative the greedy `:?` takes a following `:` exactly when an at-sign
run starts after it; if no `:` is present, or backtracking gives the `:`
up, the at-sign run must start right after `[Rr][tT]` (and a leftover `:`
there fails, as `:` is no at-sign).
-/

/-- The `([@＠]+)([A-Za-z0-9_]{1,20})` tail of `valid_mention` at a fixed
position: `mentionBodyAt cs = some (p, q)` when `cs` starts with an
at-sign run of length `p ≥ 1` followed by at least one user-name
character, `[q - p]` being the (greedily capped) user-name length.
Offsets are relative to `cs`; the capture group 3 is `[p, q)`. -/
def mentionBodyAt (cs : List Char) : Option (Nat × Nat) :=
  let ats := cs.takeWhile isAtSign
  if ats.length = 0 then none
  else
    let ws := (cs.drop ats.length).takeWhile isWordChar
    if ws.length = 0 then none
    else some (ats.length, ats.length + min ws.length 20)

/-- The `valid_mention` alternation at a fixed start position, tried in
written order: the one-character class `[^A-Za-z0-9_!#$%&*@＠]`, then `^`
(only when `atStart`), then `[Rr][tT]:?`.  Returns the capture group 3
(body start, body end) relative to `cs`, `none` when no match starts
here. -/
def mentionStartCandidate (atStart : Bool) (cs : List Char) : Option (Nat × Nat) :=
  match cs with
  | [] => none
  | c :: rest =>
    if !inMentionSet c then
      (mentionBodyAt rest).map fun p => (1 + p.1, 1 + p.2)
    else if atStart && (mentionBodyAt cs).isSome then
      mentionBodyAt cs
    else if isRTr c && rest.head?.any isRTt then
      match rest with
      | [] => none
      | _ :: rest2 =>
        if rest2.head? = some ':' && (mentionBodyAt rest2.tail).isSome then
          (mentionBodyAt rest2.tail).map fun p => (3 + p.1, 3 + p.2)
        else
          (mentionBodyAt rest2).map fun p => (2 + p.1, 2 + p.2)
    else none

/-- The left-to-right non-overlapping scan for `valid_mention`:
`scanMentionsAux fuel pos cs` scans `cs`, the suffix of the text starting
at position `pos` (`^` matches only when `pos = 0`).  On a match the scan
resumes at the match end `pos + b` — the candidate's `b` is always ≥ 1,
so the recursion argument `rest.drop (b - 1)` is `(c :: rest).drop b`.
Emitted pairs are the capture group 3 in absolute positions. -/
def scanMentionsAux : Nat → Nat → List Char → List (Nat × Nat)
  | 0, _, _ => []
  | _ + 1, _, [] => []
  | fuel + 1, pos, c :: rest =>
    match mentionStartCandidate (pos == 0) (c :: rest) with
    | some (a, b) => (pos + a, pos + b) :: scanMentionsAux fuel (pos + b) (rest.drop (b - 1))
    | none => scanMentionsAux fuel (pos + 1) rest

/-- All `valid_mention` matches of a text, as (body start, body end)
pairs: `valid_mention.FindAllStringSubmatchIndex(text, -1)` projected to
capture group 3. -/
def valid_mention_matches (cs : List Char) : List (Nat × Nat) :=
  scanMentionsAux cs.length 0 cs

/-- `ExtractMentionsWithIndices` of `hashtag.go`, over `List Char`:
fast path when no at-sign occurs, then the scan, then the
`invalid_mention_match_end` filter on the text after each match end, then
projection to entities. -/
def mentionEntities (cs : List Char) : List Entity :=
  if cs.any isAtSign then
    ((valid_mention_matches cs).filter fun m =>
        !invalid_mention_match_end (cs.drop m.2)).map fun m =>
      { Start := m.1, End := m.2, Value := ((cs.drop m.1).take (m.2 - m.1)).asString }
  else []

/-- `ExtractMentionsWithIndices` of `hashtag.go`. -/
def ExtractMentionsWithIndices (text : String) : List Entity :=
  mentionEntities text.data

/-- `ExtractMentions` of `hashtag.go`: the entities of
`ExtractMentionsWithIndices`, projected to their `Value` fields. -/
def ExtractMentions (text : String) : List String :=
  (ExtractMentionsWithIndices text).map Entity.Value

/-!
## The `valid_reply` scanner

`valid_reply` is `^(?:unicode_spaces)*[@＠]([A-Za-z0-9_]{1,20})`,
anchored at the start of the text (no multiline flag), so
`FindAllStringSubmatchIndex` yields at most one match.  The greedy space
run is maximal (an at-sign is not a space, so backtracking never helps),
then one at-sign, then 1–20 user-name characters taken greedily.
-/

/-- The unique `valid_reply` match, as the capture group
(user-name start, user-name end); the match end equals the group end. -/
def replyCandidate (cs : List Char) : Option (Nat × Nat) :=
  let sp := cs.takeWhile isUnicodeSpace
  match cs.dropWhile isUnicodeSpace with
  | c :: rest =>
    if isAtSign c then
      let ws := rest.takeWhile isWordChar
      if ws.length = 0 then none
      else some (sp.length + 1, sp.length + 1 + min ws.length 20)
    else none
  | [] => none

/-- `ExtractReply` of `hashtag.go`: fast path when no at-sign occurs,
then the anchored `valid_reply` match, then the
`invalid_mention_match_end` filter; returns the user name, or `""` when
there is no accepted reply candidate. -/
def ExtractReply (text : String) : String :=
  if text.data.any isAtSign then
    match replyCandidate text.data with
    | some (s, e) =>
      if invalid_mention_match_end (text.data.drop e) then ""
      else ((text.data.drop s).take (e - s)).asString
    | none => ""
  else ""

/-!
## Statement-level predicates

Conditions used to state the claims about marker anchoring.  Positions
are code-point indices into the original text.
-/

/-- Replace every ASCII hash marker `#` by the fullwidth marker `＃`
(U+FF03), leaving all other characters unchanged: the marker substitution
of the fullwidth-equivalence claim. -/
def replaceHashMarker (c : Char) : Char :=
  if c = '#' then '＃' else c

/-- An `[Rr][tT]:?` prefix ends exactly at position `q`: either the two
characters before `q` are `R`/`r`, `T`/`t`, or the three characters
before `q` are `R`/`r`, `T`/`t`, `:`. -/
def PrecededByRT (cs : List Char) (q : Nat) : Prop :=
  (2 ≤ q ∧ cs[q - 2]?.any isRTr = true ∧ cs[q - 1]?.any isRTt = true) ∨
    (3 ≤ q ∧ cs[q - 1]? = some ':' ∧ cs[q - 3]?.any isRTr = true ∧
      cs[q - 2]?.any isRTt = true)

instance (cs : List Char) (q : Nat) : Decidable (PrecededByRT cs q) :=
  inferInstanceAs (Decidable (_ ∨ _))

/-- The claim's single-marker mention condition, as stated: the one
at-sign directly before the body (at `ent.Start - 1`) is preceded by
start of text, by a character outside `[A-Za-z0-9_!#$%&*@＠]`, or by an
`RT`/`rt` prefix (optionally followed by `:`), and the marker is followed
by the 1–20 user-name characters that form the body. -/
def MentionSingleMarkerOK (cs : List Char) (ent : Entity) : Prop :=
  1 ≤ ent.Start ∧ cs[ent.Start - 1]?.any isAtSign = true ∧
    (ent.Start = 1 ∨
      cs[ent.Start - 2]?.any (fun p => !inMentionSet p) = true ∨
      PrecededByRT cs (ent.Start - 1)) ∧
    1 ≤ ent.End - ent.Start ∧ ent.End - ent.Start ≤ 20 ∧
    ent.Value.data = (cs.drop ent.Start).take (ent.End - ent.Start) ∧
    ent.Value.data.all isWordChar = true

instance (cs : List Char) (ent : Entity) : Decidable (MentionSingleMarkerOK cs ent) :=
  inferInstanceAs (Decidable (_ ∧ _))

/-- What the scanner guarantees for a `valid_hashtag` match
`m = (body start, body end)` on text `cs`. -/
def HashtagMatchOK (cs : List Char) (m : Nat × Nat) : Prop :=
  1 ≤ m.1 ∧ m.2 ≤ cs.length ∧
    cs[m.1 - 1]?.any isHashMarker = true ∧
    (m.1 = 1 ∨
      cs[m.1 - 2]?.any (fun p => !(decide (p = '&') || isHashtagChar p)) = true) ∧
    (cs.drop m.1).takeWhile isHashtagChar = (cs.drop m.1).take (m.2 - m.1) ∧
    m.2 = m.1 + ((cs.drop m.1).takeWhile isHashtagChar).length ∧
    ((cs.drop m.1).takeWhile isHashtagChar).any isHashtagLetter = true

/-- What the scanner guarantees for a `valid_mention` match
`m = (body start, body end)` on text `cs`: the body is 1–20 user-name
characters, directly preceded by a run of `k ≥ 1` at-signs, and the run
is preceded by start of text, a character outside the mention set, or an
`RT`/`rt` prefix. -/
def MentionMatchOK (cs : List Char) (m : Nat × Nat) : Prop :=
  m.2 ≤ cs.length ∧ 1 ≤ m.2 - m.1 ∧ m.2 - m.1 ≤ 20 ∧
    ((cs.drop m.1).take (m.2 - m.1)).all isWordChar = true ∧
    ∃ k, 1 ≤ k ∧ k ≤ m.1 ∧
      (∀ i, i < k → cs[m.1 - k + i]?.any isAtSign = true) ∧
      (m.1 - k = 0 ∨
        cs[m.1 - k - 1]?.any (fun p => !inMentionSet p) = true ∨
        PrecededByRT cs (m.1 - k))

/-!
## Helper lemmas
-/

theorem takeWhile_index {p : Char → Bool} :
    ∀ (l : List Char) (i : Nat), i < (l.takeWhile p).length → l[i]?.any p = true := by
  intro l
  induction l with
  | nil => intro i h; simp [List.takeWhile] at h
  | cons c rest ih =>
    intro i h
    rw [List.takeWhile] at h
    cases hp : p c with
    | false => rw [hp] at h; simp at h
    | true =>
      rw [hp] at h
      cases i with
      | zero => simpa using hp
      | succ j => simpa using ih j (by simpa using h)

theorem drop_cons {text cs : List Char} {pos : Nat} {c : Char}
    (h : text.drop pos = c :: cs) : text.drop (pos + 1) = cs := by
  have := List.tail_drop text pos
  rw [h] at this
  simpa using this.symm

theorem drop_head_getElem {text cs : List Char} {pos : Nat} {c : Char}
    (h : text.drop pos = c :: cs) : text[pos]? = some c := by
  have := List.getElem?_drop text pos 0
  rw [h] at this
  simpa using this.symm

theorem drop_cons_length {text cs : List Char} {pos : Nat} {c : Char}
    (h : text.drop pos = c :: cs) : pos + 1 + cs.length = text.length := by
  have := List.length_drop pos text
  rw [h] at this
  have hlt : pos < text.length := by
    by_contra hge
    rw [List.drop_eq_nil_of_le (by omega)] at h
    exact absurd h (by simp)
  simp at this
  omega

/-- A prefix of the `takeWhile` run is recovered by `take`. -/
theorem take_of_takeWhile_le {p : Char → Bool} (l : List Char) (n : Nat)
    (h : n ≤ (l.takeWhile p).length) : l.take n = (l.takeWhile p).take n := by
  obtain ⟨t, ht⟩ := List.takeWhile_prefix (l := l) p
  conv_lhs => rw [← ht]
  rw [List.take_append_of_le_length h]

theorem takeWhile_take_eq {p : Char → Bool} (l : List Char) :
    l.take (l.takeWhile p).length = l.takeWhile p := by
  rw [take_of_takeWhile_le l _ (Nat.le_refl _), List.take_length]

theorem takeWhile_length_le (p : Char → Bool) (l : List Char) :
    (l.takeWhile p).length ≤ l.length :=
  (List.takeWhile_prefix p).length_le

/-!
## Soundness of the hashtag scanner
-/

theorem scanHashtagsAux_sound (text : List Char) (fuel : Nat) :
    ∀ (ls : Bool) (pos : Nat) (cs : List Char),
      cs = text.drop pos →
      (ls = true → pos = 0 ∨ text[pos - 1]? = some '\n') →
      (∀ m ∈ scanHashtagsAux fuel ls pos cs, pos + 1 ≤ m.1 ∧ HashtagMatchOK text m) ∧
        (scanHashtagsAux fuel ls pos cs).Pairwise (fun a b => a.2 < b.1) := by
  induction fuel with
  | zero => intro ls pos cs _ _; simp [scanHashtagsAux]
  | succ fuel ih =>
    intro ls pos cs hcs hls
    cases cs with
    | nil => simp [scanHashtagsAux]
    | cons c rest =>
      have hdrop1 : text.drop (pos + 1) = rest := drop_cons hcs.symm
      have hgetc : text[pos]? = some c := drop_head_getElem hcs.symm
      have hlen : pos + 1 + rest.length = text.length := drop_cons_length hcs.symm
      simp only [scanHashtagsAux]
      by_cases hg :
          (ls && isHashMarker c && (rest.takeWhile isHashtagChar).any isHashtagLetter) = true
      · rw [if_pos hg]
        rw [Bool.and_eq_true, Bool.and_eq_true] at hg
        obtain ⟨⟨hlstrue, hmk⟩, hany⟩ := hg
        have hrlen : (rest.takeWhile isHashtagChar).length ≤ rest.length :=
          takeWhile_length_le _ _
        have hcs' : rest.drop (rest.takeWhile isHashtagChar).length =
            text.drop (pos + 1 + (rest.takeWhile isHashtagChar).length) := by
          rw [← hdrop1, List.drop_drop, Nat.add_comm]
        obtain ⟨ihmem, ihpw⟩ := ih false (pos + 1 + (rest.takeWhile isHashtagChar).length)
          (rest.drop (rest.takeWhile isHashtagChar).length) hcs' (by simp)
        have hheadOK : HashtagMatchOK text
            (pos + 1, pos + 1 + (rest.takeWhile isHashtagChar).length) := by
          refine ⟨by omega, by omega, ?_, ?_, ?_, ?_, ?_⟩
          · simp only [Nat.add_sub_cancel, hgetc, Option.any_some, hmk]
          · rcases hls hlstrue with h0 | hnl
            · left; omega
            · right
              have h2 : pos + 1 - 2 = pos - 1 := by omega
              rw [h2, hnl]
              simp only [Option.any_some]
              decide
          · simp only [Nat.add_sub_cancel_left, hdrop1, takeWhile_take_eq]
          · simp only [hdrop1]
          · simp only [hdrop1, hany]
        constructor
        · intro m hm
          rcases List.mem_cons.mp hm with rfl | hm'
          · exact ⟨Nat.le_refl _, hheadOK⟩
          · obtain ⟨h1, h2⟩ := ihmem m hm'
            exact ⟨by omega, h2⟩
        · rw [List.pairwise_cons]
          exact ⟨fun m hm => by have := (ihmem m hm).1; omega, ihpw⟩
      · rw [if_neg hg]
        cases rest with
        | nil => simp
        | cons d rest2 =>
          dsimp only
          have hgetd : text[pos + 1]? = some d := drop_head_getElem hdrop1
          have hdrop2 : text.drop (pos + 1 + 1) = rest2 := drop_cons hdrop1
          have hlen2 : pos + 1 + 1 + rest2.length = text.length := drop_cons_length hdrop1
          by_cases hgB :
              (!(decide (c = '&') || isHashtagChar c) && isHashMarker d &&
                (rest2.takeWhile isHashtagChar).any isHashtagLetter) = true
          · rw [if_pos hgB]
            rw [Bool.and_eq_true, Bool.and_eq_true] at hgB
            obtain ⟨⟨hclass, hmkd⟩, hanyB⟩ := hgB
            have hrlen : (rest2.takeWhile isHashtagChar).length ≤ rest2.length :=
              takeWhile_length_le _ _
            have hcs' : rest2.drop (rest2.takeWhile isHashtagChar).length =
                text.drop (pos + 2 + (rest2.takeWhile isHashtagChar).length) := by
              rw [← hdrop2, List.drop_drop]
            obtain ⟨ihmem, ihpw⟩ := ih false (pos + 2 + (rest2.takeWhile isHashtagChar).length)
              (rest2.drop (rest2.takeWhile isHashtagChar).length) hcs' (by simp)
            have hdrop2' : text.drop (pos + 2) = rest2 := by
              rw [← hdrop2]
            have hheadOK : HashtagMatchOK text
                (pos + 2, pos + 2 + (rest2.takeWhile isHashtagChar).length) := by
              refine ⟨by omega, by omega, ?_, ?_, ?_, ?_, ?_⟩
              · have h1 : pos + 2 - 1 = pos + 1 := by omega
                rw [h1, hgetd]
                simp only [Option.any_some, hmkd]
              · right
                have h2 : pos + 2 - 2 = pos := by omega
                rw [h2, hgetc]
                simp only [Option.any_some, hclass]
              · simp only [Nat.add_sub_cancel_left, hdrop2', takeWhile_take_eq]
              · simp only [hdrop2']
              · simp only [hdrop2', hanyB]
            constructor
            · intro m hm
              rcases List.mem_cons.mp hm with rfl | hm'
              · exact ⟨by omega, hheadOK⟩
              · obtain ⟨h1, h2⟩ := ihmem m hm'
                exact ⟨by omega, h2⟩
            · rw [List.pairwise_cons]
              exact ⟨fun m hm => by have := (ihmem m hm).1; omega, ihpw⟩
          · rw [if_neg hgB]
            have hls' : decide (c = '\n') = true →
                pos + 1 = 0 ∨ text[pos + 1 - 1]? = some '\n' := by
              intro hc
              right
              have : c = '\n' := by simpa using hc
              simpa [this] using hgetc
            obtain ⟨ihmem, ihpw⟩ := ih (decide (c = '\n')) (pos + 1) (d :: rest2)
              hdrop1.symm hls'
            constructor
            · intro m hm
              obtain ⟨h1, h2⟩ := ihmem m hm
              exact ⟨by omega, h2⟩
            · exact ihpw

/-- The scanner guarantees, at the top-level call. -/
theorem valid_hashtag_matches_sound (cs : List Char) :
    (∀ m ∈ valid_hashtag_matches cs, 1 ≤ m.1 ∧ HashtagMatchOK cs m) ∧
      (valid_hashtag_matches cs).Pairwise (fun a b => a.2 < b.1) := by
  obtain ⟨hmem, hpw⟩ := scanHashtagsAux_sound cs cs.length true 0 cs (by simp)
    (fun _ => Or.inl rfl)
  exact ⟨fun m hm => ⟨by have := (hmem m hm).1; omega, (hmem m hm).2⟩, hpw⟩

/-- Without a marker character in the text, the scan finds nothing. -/
theorem scanHashtagsAux_eq_nil_of_no_marker (fuel : Nat) :
    ∀ (ls : Bool) (pos : Nat) (cs : List Char), cs.any isHashMarker = false →
      scanHashtagsAux fuel ls pos cs = [] := by
  induction fuel with
  | zero => intros; rfl
  | succ fuel ih =>
    intro ls pos cs h
    cases cs with
    | nil => rfl
    | cons c rest =>
      rw [List.any_cons, Bool.or_eq_false_iff] at h
      obtain ⟨hc, hrest⟩ := h
      simp only [scanHashtagsAux]
      rw [if_neg (by simp [hc])]
      cases rest with
      | nil => rfl
      | cons d rest2 =>
        dsimp only
        rw [List.any_cons, Bool.or_eq_false_iff] at hrest
        obtain ⟨hd, hrest2⟩ := hrest
        rw [if_neg (by simp [hd])]
        exact ih _ _ _ (by simp [hd, hrest2])

/-!
## Equivariance of the hashtag extractor under `replaceHashMarker`
-/

theorem isHashMarker_replace (c : Char) :
    isHashMarker (replaceHashMarker c) = isHashMarker c := by
  by_cases hc : c = '#'
  · subst hc; decide
  · simp [replaceHashMarker, hc]

theorem isHashtagChar_replace (c : Char) :
    isHashtagChar (replaceHashMarker c) = isHashtagChar c := by
  by_cases hc : c = '#'
  · subst hc; decide
  · simp [replaceHashMarker, hc]

theorem isHashtagLetter_replace (c : Char) :
    isHashtagLetter (replaceHashMarker c) = isHashtagLetter c := by
  by_cases hc : c = '#'
  · subst hc; decide
  · simp [replaceHashMarker, hc]

theorem replace_eq_amp (c : Char) :
    decide (replaceHashMarker c = '&') = decide (c = '&') := by
  by_cases hc : c = '#'
  · subst hc; decide
  · simp [replaceHashMarker, hc]

theorem replace_eq_newline (c : Char) :
    decide (replaceHashMarker c = '\n') = decide (c = '\n') := by
  by_cases hc : c = '#'
  · subst hc; decide
  · simp [replaceHashMarker, hc]

theorem replace_eq_colon (c : Char) :
    decide (replaceHashMarker c = ':') = decide (c = ':') := by
  by_cases hc : c = '#'
  · subst hc; decide
  · simp [replaceHashMarker, hc]

theorem replace_eq_slash (c : Char) :
    replaceHashMarker c = '/' ↔ c = '/' := by
  by_cases hc : c = '#'
  · subst hc; decide
  · simp [replaceHashMarker, hc]

theorem replace_eq_self_of_hashtagChar {c : Char} (h : isHashtagChar c = true) :
    replaceHashMarker c = c := by
  by_cases hc : c = '#'
  · subst hc; exact absurd h (by decide)
  · simp [replaceHashMarker, hc]

theorem scanHashtagsAux_map_replace (fuel : Nat) :
    ∀ (ls : Bool) (pos : Nat) (cs : List Char),
      scanHashtagsAux fuel ls pos (cs.map replaceHashMarker) =
        scanHashtagsAux fuel ls pos cs := by
  induction fuel with
  | zero => intros; rfl
  | succ fuel ih =>
    intro ls pos cs
    cases cs with
    | nil => rfl
    | cons c rest =>
      cases rest with
      | nil =>
        simp only [List.map_cons, List.map_nil, scanHashtagsAux]
        simp [isHashMarker_replace]
      | cons d rest2 =>
        simp only [List.map_cons, scanHashtagsAux]
        rw [show replaceHashMarker d :: List.map replaceHashMarker rest2 =
          List.map replaceHashMarker (d :: rest2) from rfl]
        simp only [List.takeWhile_map, List.any_map, List.length_map, ← List.map_drop,
          Function.comp_def, isHashMarker_replace, isHashtagChar_replace,
          isHashtagLetter_replace, replace_eq_amp, replace_eq_newline, ih]

theorem map_replace_pair_slashes (l : List Char) :
    l.map replaceHashMarker = ['/', '/'] ↔ l = ['/', '/'] := by
  cases l with
  | nil => simp
  | cons a t =>
    cases t with
    | nil => simp [replace_eq_slash]
    | cons b t2 => simp [replace_eq_slash]

theorem invalid_hashtag_match_end_map (l : List Char) :
    invalid_hashtag_match_end (l.map replaceHashMarker) = invalid_hashtag_match_end l := by
  cases l with
  | nil => rfl
  | cons c rest =>
    simp only [List.map_cons, invalid_hashtag_match_end, isHashMarker_replace,
      replace_eq_colon, ← List.map_take]
    congr 1
    congr 1
    rw [decide_eq_decide]
    exact map_replace_pair_slashes _

theorem hashtagEntities_map_replace (cs : List Char) :
    hashtagEntities (cs.map replaceHashMarker) = hashtagEntities cs := by
  unfold hashtagEntities
  have hany : (cs.map replaceHashMarker).any isHashMarker = cs.any isHashMarker := by
    simp [List.any_map, Function.comp_def, isHashMarker_replace]
  have hmatches : valid_hashtag_matches (cs.map replaceHashMarker) =
      valid_hashtag_matches cs := by
    unfold valid_hashtag_matches
    rw [List.length_map, scanHashtagsAux_map_replace]
  rw [hany, hmatches]
  split
  · have hfilter : ((valid_hashtag_matches cs).filter fun m =>
        !invalid_hashtag_match_end ((cs.map replaceHashMarker).drop m.2)) =
        (valid_hashtag_matches cs).filter fun m =>
          !invalid_hashtag_match_end (cs.drop m.2) := by
      apply List.filter_congr
      intro m _
      rw [← List.map_drop, invalid_hashtag_match_end_map]
    rw [hfilter]
    apply List.map_congr_left
    intro m hm
    obtain ⟨_, _, _, _, htw, _, _⟩ :=
      ((valid_hashtag_matches_sound cs).1 m (List.mem_of_mem_filter hm)).2
    have hslice : ((cs.map replaceHashMarker).drop m.1).take (m.2 - m.1) =
        (cs.drop m.1).take (m.2 - m.1) := by
      rw [← List.map_drop, ← List.map_take]
      have hfix : ∀ x ∈ (cs.drop m.1).take (m.2 - m.1), replaceHashMarker x = x := by
        intro x hx
        rw [← htw] at hx
        exact replace_eq_self_of_hashtagChar (List.mem_takeWhile_imp hx)
      calc ((cs.drop m.1).take (m.2 - m.1)).map replaceHashMarker
          = ((cs.drop m.1).take (m.2 - m.1)).map id := List.map_congr_left hfix
        _ = (cs.drop m.1).take (m.2 - m.1) := List.map_id _
    rw [hslice]
  · rfl

/-!
## Soundness of the mention scanner
-/

theorem mentionBodyAt_spec {cs : List Char} {p q : Nat}
    (h : mentionBodyAt cs = some (p, q)) :
    1 ≤ p ∧ p < q ∧ q ≤ cs.length ∧ q - p ≤ 20 ∧
      (∀ i, i < p → cs[i]?.any isAtSign = true) ∧
      ((cs.drop p).take (q - p)).all isWordChar = true := by
  by_cases h1 : (cs.takeWhile isAtSign).length = 0
  · simp [mentionBodyAt, h1] at h
  by_cases h2 : ((cs.drop (cs.takeWhile isAtSign).length).takeWhile isWordChar).length = 0
  · simp [mentionBodyAt, h1, h2] at h
  rw [mentionBodyAt] at h
  simp only [if_neg h1, if_neg h2, Option.some.injEq, Prod.mk.injEq] at h
  obtain ⟨hp, hq⟩ := h
  subst hp
  set A := (cs.takeWhile isAtSign).length with hA
  set W := ((cs.drop A).takeWhile isWordChar).length with hW
  have hAle : A ≤ cs.length := takeWhile_length_le _ _
  have hWle : W ≤ (cs.drop A).length := takeWhile_length_le _ _
  have hdlen : (cs.drop A).length = cs.length - A := List.length_drop _ _
  have hmin1 : 1 ≤ min W 20 := le_min (by omega) (by omega)
  have hminW : min W 20 ≤ W := Nat.min_le_left _ _
  have hmin20 : min W 20 ≤ 20 := Nat.min_le_right _ _
  refine ⟨by omega, by omega, by omega, by omega, ?_, ?_⟩
  · intro i hi
    exact takeWhile_index cs i (by omega)
  · have hqp : q - A = min W 20 := by omega
    rw [hqp, take_of_takeWhile_le (p := isWordChar) _ _ (by omega)]
    rw [List.all_eq_true]
    intro x hx
    exact List.mem_takeWhile_imp (List.mem_of_mem_take hx)

theorem mentionStartCandidate_spec {st : Bool} {cs : List Char} {a b : Nat}
    (h : mentionStartCandidate st cs = some (a, b)) :
    1 ≤ a ∧ a < b ∧ b ≤ cs.length ∧ b - a ≤ 20 ∧
      ((cs.drop a).take (b - a)).all isWordChar = true ∧
      ∃ k, 1 ≤ k ∧ k ≤ a ∧
        (∀ i, i < k → cs[a - k + i]?.any isAtSign = true) ∧
        ((a - k = 0 ∧ st = true) ∨
          (1 ≤ a - k ∧ cs[a - k - 1]?.any (fun x => !inMentionSet x) = true) ∨
          (a - k = 2 ∧ cs[0]?.any isRTr = true ∧ cs[1]?.any isRTt = true) ∨
          (a - k = 3 ∧ cs[2]? = some ':' ∧ cs[0]?.any isRTr = true ∧
            cs[1]?.any isRTt = true)) := by
  cases cs with
  | nil => simp [mentionStartCandidate] at h
  | cons c rest =>
    rw [mentionStartCandidate.eq_def] at h
    dsimp only at h
    by_cases hset : (!inMentionSet c) = true
    · rw [if_pos hset] at h
      obtain ⟨⟨p, q⟩, hbody, hab⟩ := Option.map_eq_some'.mp h
      injection hab with ha hb
      dsimp only at ha hb
      subst ha hb
      obtain ⟨hp1, hpq, hqlen, hq20, hats, hword⟩ := mentionBodyAt_spec hbody
      refine ⟨by omega, by omega, by simp only [List.length_cons]; omega, by omega, ?_,
        p, by omega, by omega, ?_, ?_⟩
      · rw [show (1 : Nat) + p = p + 1 from by omega, List.drop_succ_cons,
          show 1 + q - (p + 1) = q - p from by omega]
        exact hword
      · intro i hi
        rw [show 1 + p - p + i = i + 1 from by omega, List.getElem?_cons_succ]
        exact hats i hi
      · refine Or.inr (Or.inl ⟨by omega, ?_⟩)
        rw [show 1 + p - p - 1 = 0 from by omega, List.getElem?_cons_zero]
        simpa using hset
    · rw [if_neg hset] at h
      by_cases hst : (st && (mentionBodyAt (c :: rest)).isSome) = true
      · rw [if_pos hst] at h
        rw [Bool.and_eq_true] at hst
        obtain ⟨hst1, _⟩ := hst
        obtain ⟨hp1, hpq, hqlen, hq20, hats, hword⟩ := mentionBodyAt_spec h
        refine ⟨by omega, by omega, by omega, by omega, hword,
          a, by omega, by omega, ?_, Or.inl ⟨by omega, hst1⟩⟩
        intro i hi
        rw [show a - a + i = i from by omega]
        exact hats i hi
      · rw [if_neg hst] at h
        by_cases hrt : (isRTr c && rest.head?.any isRTt) = true
        · rw [if_pos hrt] at h
          rw [Bool.and_eq_true] at hrt
          obtain ⟨hr, ht0⟩ := hrt
          cases rest with
          | nil => simp at ht0
          | cons t rest2 =>
            have ht : isRTt t = true := by simpa using ht0
            dsimp only at h
            by_cases hcolon :
                (rest2.head? = some ':' && (mentionBodyAt rest2.tail).isSome) = true
            · rw [if_pos hcolon] at h
              rw [Bool.and_eq_true] at hcolon
              obtain ⟨hcol0, _⟩ := hcolon
              cases rest2 with
              | nil => simp at hcol0
              | cons u rest3 =>
                have hu : u = ':' := by simpa using hcol0
                subst hu
                simp only [List.tail_cons] at h
                obtain ⟨⟨p, q⟩, hbody, hab⟩ := Option.map_eq_some'.mp h
                injection hab with ha hb
                dsimp only at ha hb
                subst ha hb
                obtain ⟨hp1, hpq, hqlen, hq20, hats, hword⟩ := mentionBodyAt_spec hbody
                refine ⟨by omega, by omega, by simp only [List.length_cons]; omega,
                  by omega, ?_, p, by omega, by omega, ?_, ?_⟩
                · rw [show (3 : Nat) + p = p + 1 + 1 + 1 from by omega,
                    List.drop_succ_cons, List.drop_succ_cons, List.drop_succ_cons,
                    show 3 + q - (p + 1 + 1 + 1) = q - p from by omega]
                  exact hword
                · intro i hi
                  rw [show 3 + p - p + i = i + 1 + 1 + 1 from by omega,
                    List.getElem?_cons_succ, List.getElem?_cons_succ,
                    List.getElem?_cons_succ]
                  exact hats i hi
                · refine Or.inr (Or.inr (Or.inr ⟨by omega, by simp, ?_, ?_⟩))
                  · simp [hr]
                  · simp [ht]
            · rw [if_neg hcolon] at h
              obtain ⟨⟨p, q⟩, hbody, hab⟩ := Option.map_eq_some'.mp h
              injection hab with ha hb
              dsimp only at ha hb
              subst ha hb
              obtain ⟨hp1, hpq, hqlen, hq20, hats, hword⟩ := mentionBodyAt_spec hbody
              refine ⟨by omega, by omega, by simp only [List.length_cons]; omega,
                by omega, ?_, p, by omega, by omega, ?_, ?_⟩
              · rw [show (2 : Nat) + p = p + 1 + 1 from by omega,
                  List.drop_succ_cons, List.drop_succ_cons,
                  show 2 + q - (p + 1 + 1) = q - p from by omega]
                exact hword
              · intro i hi
                rw [show 2 + p - p + i = i + 1 + 1 from by omega,
                  List.getElem?_cons_succ, List.getElem?_cons_succ]
                exact hats i hi
              · refine Or.inr (Or.inr (Or.inl ⟨by omega, ?_, ?_⟩))
                · simp [hr]
                · simp [ht]
        · rw [if_neg hrt] at h
          exact absurd h (by simp)

set_option maxHeartbeats 1000000 in
theorem scanMentionsAux_sound (text : List Char) (fuel : Nat) :
    ∀ (pos : Nat) (cs : List Char), cs = text.drop pos →
      (∀ m ∈ scanMentionsAux fuel pos cs, pos + 1 ≤ m.1 ∧ MentionMatchOK text m) ∧
        (scanMentionsAux fuel pos cs).Pairwise (fun a b => a.2 < b.1) := by
  induction fuel with
  | zero => intro pos cs _; exact ⟨by simp [scanMentionsAux], by simp [scanMentionsAux]⟩
  | succ fuel ih =>
    intro pos cs hcs
    cases cs with
    | nil => exact ⟨by simp [scanMentionsAux], by simp [scanMentionsAux]⟩
    | cons c rest =>
      have hdrop1 : text.drop (pos + 1) = rest := drop_cons hcs.symm
      have hlen : pos + 1 + rest.length = text.length := drop_cons_length hcs.symm
      simp only [scanMentionsAux]
      cases hcand : mentionStartCandidate (pos == 0) (c :: rest) with
      | none =>
        obtain ⟨ihmem, ihpw⟩ := ih (pos + 1) rest hdrop1.symm
        exact ⟨fun m hm => ⟨by have := (ihmem m hm).1; omega, (ihmem m hm).2⟩, ihpw⟩
      | some ab =>
        obtain ⟨a, b⟩ := ab
        obtain ⟨ha1, hab, hblen, h20, hword, k, hk1, hka, hats, hpre⟩ :=
          mentionStartCandidate_spec hcand
        rw [List.length_cons] at hblen
        have hcs' : rest.drop (b - 1) = text.drop (pos + b) := by
          rw [← hdrop1, List.drop_drop]
          congr 1
          omega
        obtain ⟨ihmem, ihpw⟩ := ih (pos + b) (rest.drop (b - 1)) hcs'
        have hidx : ∀ j, (c :: rest)[j]? = text[pos + j]? := by
          intro j
          rw [hcs]
          exact List.getElem?_drop text pos j
        have hdropj : ∀ j, (c :: rest).drop j = text.drop (pos + j) := by
          intro j
          rw [hcs, List.drop_drop, Nat.add_comm]
        have hheadOK : MentionMatchOK text (pos + a, pos + b) := by
          refine ⟨by omega, by omega, by omega, ?_, k, hk1, by omega, ?_, ?_⟩
          · rw [show pos + b - (pos + a) = b - a from by omega, ← hdropj a]
            exact hword
          · intro i hi
            rw [show pos + a - k + i = pos + (a - k + i) from by omega, ← hidx]
            exact hats i hi
          · rcases hpre with ⟨hak, hst⟩ | ⟨hak, hprev⟩ | ⟨hak, hr, ht⟩ |
              ⟨hak, hcol, hr, ht⟩
            · left
              have hpos0 : pos = 0 := by simpa using hst
              omega
            · right; left
              rw [show pos + a - k - 1 = pos + (a - k - 1) from by omega, ← hidx]
              exact hprev
            · right; right
              left
              refine ⟨by omega, ?_, ?_⟩
              · rw [show pos + a - k - 2 = pos + 0 from by omega, ← hidx]
                exact hr
              · rw [show pos + a - k - 1 = pos + 1 from by omega, ← hidx]
                exact ht
            · right; right
              right
              refine ⟨by omega, ?_, ?_, ?_⟩
              · rw [show pos + a - k - 1 = pos + 2 from by omega, ← hidx]
                exact hcol
              · rw [show pos + a - k - 3 = pos + 0 from by omega, ← hidx]
                exact hr
              · rw [show pos + a - k - 2 = pos + 1 from by omega, ← hidx]
                exact ht
        constructor
        · intro m hm
          rcases List.mem_cons.mp hm with rfl | hm'
          · exact ⟨by omega, hheadOK⟩
          · obtain ⟨h1, h2⟩ := ihmem m hm'
            exact ⟨by omega, h2⟩
        · rw [List.pairwise_cons]
          exact ⟨fun m hm => by have := (ihmem m hm).1; omega, ihpw⟩

/-- The scanner guarantees, at the top-level call. -/
theorem valid_mention_matches_sound (cs : List Char) :
    (∀ m ∈ valid_mention_matches cs, 1 ≤ m.1 ∧ MentionMatchOK cs m) ∧
      (valid_mention_matches cs).Pairwise (fun a b => a.2 < b.1) := by
  obtain ⟨hmem, hpw⟩ := scanMentionsAux_sound cs cs.length 0 cs (by simp)
  exact ⟨fun m hm => ⟨by have := (hmem m hm).1; omega, (hmem m hm).2⟩, hpw⟩

theorem any_tail_false {p : Char → Bool} {l : List Char} (h : l.any p = false) :
    l.tail.any p = false := by
  cases l with
  | nil => simp
  | cons c rest =>
    rw [List.any_cons, Bool.or_eq_false_iff] at h
    simpa using h.2

theorem mentionBodyAt_none {cs : List Char} (h : cs.any isAtSign = false) :
    mentionBodyAt cs = none := by
  have htw : cs.takeWhile isAtSign = [] := by
    cases cs with
    | nil => rfl
    | cons c rest =>
      rw [List.any_cons, Bool.or_eq_false_iff] at h
      exact List.takeWhile_cons_of_neg (by simp [h.1])
  simp [mentionBodyAt, htw]

theorem mentionStartCandidate_none {st : Bool} {cs : List Char}
    (h : cs.any isAtSign = false) : mentionStartCandidate st cs = none := by
  cases cs with
  | nil => rfl
  | cons c rest =>
    have h' := h
    rw [List.any_cons, Bool.or_eq_false_iff] at h'
    obtain ⟨hc, hrest⟩ := h'
    rw [mentionStartCandidate.eq_def]
    dsimp only
    rw [mentionBodyAt_none hrest, mentionBodyAt_none h]
    cases rest with
    | nil => simp
    | cons t rest2 =>
      dsimp only
      have hrest2 : rest2.any isAtSign = false := by
        rw [List.any_cons, Bool.or_eq_false_iff] at hrest
        exact hrest.2
      rw [mentionBodyAt_none (any_tail_false hrest2), mentionBodyAt_none hrest2]
      simp

theorem scanMentionsAux_eq_nil_of_no_at (fuel : Nat) :
    ∀ (pos : Nat) (cs : List Char), cs.any isAtSign = false →
      scanMentionsAux fuel pos cs = [] := by
  induction fuel with
  | zero => intros; rfl
  | succ fuel ih =>
    intro pos cs h
    cases cs with
    | nil => rfl
    | cons c rest =>
      simp only [scanMentionsAux]
      rw [mentionStartCandidate_none h]
      exact ih (pos + 1) rest
        (by rw [List.any_cons, Bool.or_eq_false_iff] at h; exact h.2)

/-!
## User-name characters versus the rejection classes
-/

theorem not_atSign_of_wordChar {c : Char} (h : isWordChar c = true) :
    isAtSign c = false := by
  simp only [isWordChar, inRange, Bool.or_eq_true, Bool.and_eq_true,
    decide_eq_true_eq] at h
  simp only [isAtSign, Bool.or_eq_false_iff, decide_eq_false_iff_not]
  omega

theorem not_latinAccent_of_wordChar {c : Char} (h : isWordChar c = true) :
    isLatinAccent c = false := by
  simp only [isWordChar, inRange, Bool.or_eq_true, Bool.and_eq_true,
    decide_eq_true_eq] at h
  simp only [isLatinAccent, inRange, Bool.or_eq_false_iff, Bool.and_eq_false_iff,
    decide_eq_false_iff_not]
  omega

theorem word_ne_colon {c : Char} (h : isWordChar c = true) :
    decide (c = ':') = false := by
  rw [decide_eq_false_iff_not]
  intro hc
  subst hc
  exact absurd h (by decide)

theorem invalid_mention_end_false_of_word {l : List Char}
    (hw : ∀ x ∈ l, isWordChar x = true) :
    invalid_mention_match_end l = false := by
  cases l with
  | nil => rfl
  | cons c rest =>
    have hc := hw c (by simp)
    rw [invalid_mention_match_end]
    rw [not_atSign_of_wordChar hc, not_latinAccent_of_wordChar hc, word_ne_colon hc]
    simp

/-!
## The over-long user-name run (truncation behaviour)
-/

theorem mentionBodyAt_at_run {run : List Char} (hw : ∀ x ∈ run, isWordChar x = true)
    (hlen : 21 ≤ run.length) :
    mentionBodyAt ('@' :: run) = some (1, 21) := by
  have hats : ('@' :: run).takeWhile isAtSign = ['@'] := by
    rw [List.takeWhile_cons_of_pos (by decide)]
    cases run with
    | nil => rfl
    | cons r0 run' =>
      rw [List.takeWhile_cons_of_neg]
      simp [not_atSign_of_wordChar (hw r0 (by simp))]
  have hws : (('@' :: run).drop 1).takeWhile isWordChar = run := by
    rw [show ('@' :: run).drop 1 = run from rfl]
    exact List.takeWhile_eq_self_iff.mpr hw
  rw [mentionBodyAt]
  rw [hats]
  simp only [List.length_cons, List.length_nil]
  rw [if_neg (by omega), hws]
  rw [if_neg (by omega)]
  have hmin : min run.length 20 = 20 := Nat.min_eq_right (by omega)
  rw [hmin]

theorem valid_mention_matches_at_run {run : List Char}
    (hw : ∀ x ∈ run, isWordChar x = true) (hlen : 21 ≤ run.length) :
    valid_mention_matches ('@' :: run) = [(1, 21)] := by
  have hcand : mentionStartCandidate (0 == 0) ('@' :: run) = some (1, 21) := by
    rw [mentionStartCandidate.eq_def]
    dsimp only
    rw [if_neg (by decide)]
    rw [mentionBodyAt_at_run hw hlen]
    rw [if_pos (by simp)]
  have hdrop : (run.drop 20).any isAtSign = false := by
    rw [List.any_eq_false]
    intro x hx
    simp [not_atSign_of_wordChar (hw x (List.mem_of_mem_drop hx))]
  unfold valid_mention_matches
  rw [List.length_cons]
  simp only [scanMentionsAux]
  rw [hcand]
  dsimp only
  rw [show (21 : Nat) - 1 = 20 from rfl,
    scanMentionsAux_eq_nil_of_no_at run.length (0 + 21) (run.drop 20) hdrop]

theorem mentionEntities_at_run {run : List Char}
    (hw : ∀ x ∈ run, isWordChar x = true) (hlen : 21 ≤ run.length) :
    mentionEntities ('@' :: run) = [⟨1, 21, (run.take 20).asString⟩] := by
  unfold mentionEntities
  rw [if_pos (by simp [isAtSign])]
  rw [valid_mention_matches_at_run hw hlen]
  have hinv : invalid_mention_match_end (run.drop 20) = false :=
    invalid_mention_end_false_of_word (fun x hx => hw x (List.mem_of_mem_drop hx))
  rw [List.filter_cons]
  simp [hinv, List.drop_succ_cons, show (21 : Nat) = 20 + 1 from rfl]

theorem drop_append_length (l₁ l₂ : List Char) (n : Nat) :
    (l₁ ++ l₂).drop (l₁.length + n) = l₂.drop n := by
  rw [← List.drop_drop, List.drop_left]

theorem any_length_pos {p : Char → Bool} {l : List Char} (h : l.any p = true) :
    1 ≤ l.length := by
  cases l with
  | nil => simp at h
  | cons c rest => simp

/-!
## The claims
-/

/-- C1: every hashtag body returned by `ExtractHashtags` or
`ExtractHashtagsWithIndices` contains at least one character of the
Letter/Mark class; in particular `"#1"` and `"#0"` yield empty results. -/
theorem hashtag_body_contains_letter :
    (∀ (text : String), ∀ ent ∈ ExtractHashtagsWithIndices text,
      ent.Value.data.any isHashtagLetter = true) ∧
      (∀ (text : String), ∀ v ∈ ExtractHashtags text,
        v.data.any isHashtagLetter = true) ∧
      ExtractHashtags "#1" = [] ∧ ExtractHashtags "#0" = [] ∧
      ExtractHashtagsWithIndices "#1" = [] ∧ ExtractHashtagsWithIndices "#0" = [] := by
  have main : ∀ (text : String), ∀ ent ∈ ExtractHashtagsWithIndices text,
      ent.Value.data.any isHashtagLetter = true := by
    intro text ent hent
    unfold ExtractHashtagsWithIndices hashtagEntities at hent
    split at hent
    · obtain ⟨m, hmf, rfl⟩ := List.mem_map.mp hent
      obtain ⟨_, _, _, _, htw, _, hany⟩ :=
        ((valid_hashtag_matches_sound text.data).1 m (List.mem_of_mem_filter hmf)).2
      show ((text.data.drop m.1).take (m.2 - m.1)).any isHashtagLetter = true
      rw [← htw]
      exact hany
    · exact absurd hent (by simp)
  refine ⟨main, ?_, by decide, by decide, by decide, by decide⟩
  intro text v hv
  obtain ⟨ent, hent, rfl⟩ := List.mem_map.mp hv
  exact main text ent hent

/-- C1 witness. -/
theorem hashtag_body_contains_letter_witness :
    (⟨1, 2, "a"⟩ : Entity) ∈ ExtractHashtagsWithIndices "#a" ∧
      ("a" : String).data.any isHashtagLetter = true :=
  ⟨by decide, hashtag_body_contains_letter.1 "#a" ⟨1, 2, "a"⟩ (by decide)⟩

/-- C2: a hashtag candidate of the scan is kept exactly when the text
after the match does not start with `#`, `＃` or `://`; consequently
`"#foo#bar"` and `"#foo://"` produce no entities at all. -/
theorem hashtag_suffix_rejection :
    (∀ (text : String), ∀ m ∈ valid_hashtag_matches text.data,
      ((∃ ent ∈ ExtractHashtagsWithIndices text,
          ent.Start = m.1 ∧ ent.End = m.2) ↔
        invalid_hashtag_match_end (text.data.drop m.2) = false)) ∧
      ExtractHashtagsWithIndices "#foo#bar" = [] ∧ ExtractHashtags "#foo#bar" = [] ∧
      ExtractHashtagsWithIndices "#foo://" = [] ∧ ExtractHashtags "#foo://" = [] := by
  refine ⟨?_, by decide, by decide, by decide, by decide⟩
  intro text m hm
  constructor
  · rintro ⟨ent, hent, hS, hE⟩
    unfold ExtractHashtagsWithIndices hashtagEntities at hent
    split at hent
    · obtain ⟨m', hmf', heq⟩ := List.mem_map.mp hent
      have hpred : invalid_hashtag_match_end (text.data.drop m'.2) = false := by
        simpa using List.of_mem_filter hmf'
      have hE' : m'.2 = ent.End := by rw [← heq]
      rw [← hE, ← hE']
      exact hpred
    · exact absurd hent (by simp)
  · intro hinv
    obtain ⟨h1, hOK⟩ := (valid_hashtag_matches_sound text.data).1 m hm
    obtain ⟨_, _, hmk, _, _, _, _⟩ := hOK
    have hguard : text.data.any isHashMarker = true := by
      cases hg : text.data[m.1 - 1]? with
      | none => rw [hg] at hmk; simp at hmk
      | some mk0 =>
        rw [hg] at hmk
        rw [Option.any_some] at hmk
        exact List.any_eq_true.mpr ⟨mk0, List.getElem?_mem hg, hmk⟩
    refine ⟨⟨m.1, m.2, ((text.data.drop m.1).take (m.2 - m.1)).asString⟩, ?_, rfl, rfl⟩
    unfold ExtractHashtagsWithIndices hashtagEntities
    rw [if_pos hguard]
    exact List.mem_map.mpr ⟨m, List.mem_filter.mpr ⟨hm, by rw [hinv]; rfl⟩, rfl⟩

/-- C2 witness. -/
theorem hashtag_suffix_rejection_witness :
    ((1, 4) : Nat × Nat) ∈ valid_hashtag_matches ("#foo bar" : String).data ∧
      (∃ ent ∈ ExtractHashtagsWithIndices "#foo bar",
        ent.Start = 1 ∧ ent.End = 4) :=
  ⟨by decide,
    (hashtag_suffix_rejection.1 "#foo bar" (1, 4) (by decide)).mpr (by decide)⟩

/-- C3: a hashtag marker is matched only at the start of the text or
when preceded by a character outside Letters ∪ Numerals ∪ Specials ∪ `&`
(a newline is such a character, which is what makes a marker right after
a line break acceptable); the input `"これはダメ#ハッシュタグ"`, whose
marker is preceded by a script letter, yields an empty result. -/
theorem hashtag_marker_boundary :
    (∀ (text : String), ∀ ent ∈ ExtractHashtagsWithIndices text,
      1 ≤ ent.Start ∧ text.data[ent.Start - 1]?.any isHashMarker = true ∧
        (ent.Start = 1 ∨
          text.data[ent.Start - 2]?.any
            (fun p => !(decide (p = '&') || isHashtagChar p)) = true)) ∧
      ExtractHashtags "これはダメ#ハッシュタグ" = [] ∧
      ExtractHashtagsWithIndices "これはダメ#ハッシュタグ" = [] := by
  refine ⟨?_, by decide, by decide⟩
  intro text ent hent
  unfold ExtractHashtagsWithIndices hashtagEntities at hent
  split at hent
  · obtain ⟨m, hmf, rfl⟩ := List.mem_map.mp hent
    obtain ⟨ha, _, hmk, hpre, _, _, _⟩ :=
      ((valid_hashtag_matches_sound text.data).1 m (List.mem_of_mem_filter hmf)).2
    exact ⟨ha, hmk, hpre⟩
  · exact absurd hent (by simp)

/-- C3 witness. -/
theorem hashtag_marker_boundary_witness :
    (⟨1, 2, "a"⟩ : Entity) ∈ ExtractHashtagsWithIndices "#a" ∧
      (1 ≤ (1 : Nat) ∧ ("#a" : String).data[(1 : Nat) - 1]?.any isHashMarker = true ∧
        ((1 : Nat) = 1 ∨
          ("#a" : String).data[(1 : Nat) - 2]?.any
            (fun p => !(decide (p = '&') || isHashtagChar p)) = true)) :=
  ⟨by decide, hashtag_marker_boundary.1 "#a" ⟨1, 2, "a"⟩ (by decide)⟩

/-- C4: all returned entities have `Start ≤ End`, `End` within the text,
`Value` equal to the `[Start, End)` slice of the input (code-point
indexing, used consistently throughout this embedding); entities are in
left-to-right order and entities of one kind never overlap. -/
theorem entity_indices_consistent (text : String) :
    (∀ ent ∈ ExtractHashtagsWithIndices text,
      ent.Start ≤ ent.End ∧ ent.End ≤ text.data.length ∧
        ent.Value.data = (text.data.drop ent.Start).take (ent.End - ent.Start)) ∧
      (ExtractHashtagsWithIndices text).Pairwise
        (fun e₁ e₂ => e₁.End ≤ e₂.Start ∧ e₁.Start < e₂.Start) ∧
      (∀ ent ∈ ExtractMentionsWithIndices text,
        ent.Start ≤ ent.End ∧ ent.End ≤ text.data.length ∧
          ent.Value.data = (text.data.drop ent.Start).take (ent.End - ent.Start)) ∧
      (ExtractMentionsWithIndices text).Pairwise
        (fun e₁ e₂ => e₁.End ≤ e₂.Start ∧ e₁.Start < e₂.Start) := by
  obtain ⟨hHmem, hHpw⟩ := valid_hashtag_matches_sound text.data
  obtain ⟨hMmem, hMpw⟩ := valid_mention_matches_sound text.data
  have hHlt : ∀ m ∈ valid_hashtag_matches text.data, m.1 < m.2 := by
    intro m hm
    obtain ⟨_, _, _, _, _, hlen, hany⟩ := (hHmem m hm).2
    have := any_length_pos hany
    omega
  have hMlt : ∀ m ∈ valid_mention_matches text.data, m.1 < m.2 := by
    intro m hm
    obtain ⟨_, hd, _, _, _⟩ := (hMmem m hm).2
    omega
  refine ⟨?_, ?_, ?_, ?_⟩
  · intro ent hent
    unfold ExtractHashtagsWithIndices hashtagEntities at hent
    split at hent
    · obtain ⟨m, hmf, rfl⟩ := List.mem_map.mp hent
      dsimp only
      obtain ⟨_, hle, _, _, _, hlen, hany⟩ :=
        (hHmem m (List.mem_of_mem_filter hmf)).2
      have := any_length_pos hany
      exact ⟨by omega, hle, rfl⟩
    · exact absurd hent (by simp)
  · unfold ExtractHashtagsWithIndices hashtagEntities
    split
    · apply List.pairwise_map.mpr
      apply (hHpw.filter _).imp_of_mem
      intro a b ha hb hlt
      have ha' := hHlt a (List.mem_of_mem_filter ha)
      dsimp only
      exact ⟨by omega, by omega⟩
    · simp
  · intro ent hent
    unfold ExtractMentionsWithIndices mentionEntities at hent
    split at hent
    · obtain ⟨m, hmf, rfl⟩ := List.mem_map.mp hent
      dsimp only
      obtain ⟨hle, hd, _, _, _⟩ := (hMmem m (List.mem_of_mem_filter hmf)).2
      exact ⟨by omega, hle, rfl⟩
    · exact absurd hent (by simp)
  · unfold ExtractMentionsWithIndices mentionEntities
    split
    · apply List.pairwise_map.mpr
      apply (hMpw.filter _).imp_of_mem
      intro a b ha hb hlt
      have ha' := hMlt a (List.mem_of_mem_filter ha)
      dsimp only
      exact ⟨by omega, by omega⟩
    · simp

/-- C4 witness. -/
theorem entity_indices_consistent_witness :
    (⟨1, 2, "a"⟩ : Entity) ∈ ExtractHashtagsWithIndices "#a b" ∧
      ((1 : Nat) ≤ 2 ∧ (2 : Nat) ≤ ("#a b" : String).data.length ∧
        ("a" : String).data =
          (("#a b" : String).data.drop 1).take (2 - 1)) :=
  ⟨by decide, (entity_indices_consistent "#a b").1 ⟨1, 2, "a"⟩ (by decide)⟩

/-- C5: when the text contains neither `#` nor `＃`, both extractors
return the empty sequence, and the underlying full scan would also have
found no match, so the fast path is correctness-preserving. -/
theorem hashtag_fast_path (text : String) (h : text.data.any isHashMarker = false) :
    ExtractHashtagsWithIndices text = [] ∧ ExtractHashtags text = [] ∧
      valid_hashtag_matches text.data = [] := by
  have hscan : valid_hashtag_matches text.data = [] :=
    scanHashtagsAux_eq_nil_of_no_marker _ _ _ _ h
  have hmain : ExtractHashtagsWithIndices text = [] := by
    unfold ExtractHashtagsWithIndices hashtagEntities
    rw [if_neg (by simp [h])]
  refine ⟨hmain, ?_, hscan⟩
  rw [ExtractHashtags, hmain]
  rfl

/-- C5 witness. -/
theorem hashtag_fast_path_witness :
    ("no hash at all" : String).data.any isHashMarker = false ∧
      (ExtractHashtagsWithIndices "no hash at all" = [] ∧
        ExtractHashtags "no hash at all" = [] ∧
        valid_hashtag_matches ("no hash at all" : String).data = []) :=
  ⟨by decide, hashtag_fast_path "no hash at all" (by decide)⟩

/-- C6: replacing every ASCII `#` by the fullwidth marker `＃` leaves the
extraction result unchanged (positions and bodies); in particular
`"#hashtag"` and `"＃hashtag"` both extract `["hashtag"]`, and
`"＃日本語ハッシュタグ"` extracts identically to the ASCII-marker text. -/
theorem fullwidth_marker_equivalence :
    (∀ cs : List Char,
      hashtagEntities (cs.map replaceHashMarker) = hashtagEntities cs) ∧
      ExtractHashtags "#hashtag" = ["hashtag"] ∧
      ExtractHashtags "＃hashtag" = ["hashtag"] ∧
      ("＃日本語ハッシュタグ" : String).data =
        ("#日本語ハッシュタグ" : String).data.map replaceHashMarker ∧
      ExtractHashtags "＃日本語ハッシュタグ" = ExtractHashtags "#日本語ハッシュタグ" ∧
      ExtractHashtags "＃日本語ハッシュタグ" = ["日本語ハッシュタグ"] :=
  ⟨hashtagEntities_map_replace, by decide, by decide, by decide, by decide, by decide⟩

/-- C9: the plain-string extractors return exactly the `Value` fields of
the indexed extractors, in the same order. -/
theorem plain_variants_project_indices (text : String) :
    ExtractHashtags text = (ExtractHashtagsWithIndices text).map Entity.Value ∧
      ExtractMentions text = (ExtractMentionsWithIndices text).map Entity.Value :=
  ⟨rfl, rfl⟩

/-- C7 counterexample: in `"@@foo"` the code returns the mention `"foo"`,
whose single adjacent marker (the at-sign at index 1) is preceded by
another at-sign — a character inside the excluded set, not start of text
and not an `RT` prefix — so the claim's single-marker anchor condition
fails on a returned mention. -/
theorem mention_anchor_claim_cex :
    (⟨2, 5, "foo"⟩ : Entity) ∈ ExtractMentionsWithIndices "@@foo" ∧
      ¬ MentionSingleMarkerOK ("@@foo" : String).data ⟨2, 5, "foo"⟩ := by
  constructor
  · decide
  · decide

/-- C7 (amended): a mention is matched only when its marker run of one
or more consecutive `@`/`＠` signs is preceded by start of text, by a
character outside `[A-Za-z0-9_!#$%&*@＠]`, or by an `RT`/`rt` prefix
(optionally followed by `:`), and the run is followed by 1 to 20
characters drawn from ASCII letters, digits and underscore, which form
the returned body. -/
theorem mention_anchor_sound (text : String) :
    ∀ ent ∈ ExtractMentionsWithIndices text,
      1 ≤ ent.Start ∧ 1 ≤ ent.End - ent.Start ∧ ent.End - ent.Start ≤ 20 ∧
        ent.Value.data = (text.data.drop ent.Start).take (ent.End - ent.Start) ∧
        ent.Value.data.all isWordChar = true ∧
        ∃ k, 1 ≤ k ∧ k ≤ ent.Start ∧
          (∀ i, i < k → text.data[ent.Start - k + i]?.any isAtSign = true) ∧
          (ent.Start - k = 0 ∨
            text.data[ent.Start - k - 1]?.any (fun p => !inMentionSet p) = true ∨
            PrecededByRT text.data (ent.Start - k)) := by
  intro ent hent
  unfold ExtractMentionsWithIndices mentionEntities at hent
  split at hent
  · obtain ⟨m, hmf, rfl⟩ := List.mem_map.mp hent
    dsimp only
    obtain ⟨hmem1, hOK⟩ :=
      (valid_mention_matches_sound text.data).1 m (List.mem_of_mem_filter hmf)
    obtain ⟨hle, hd1, hd20, hword, k, hk1, hka, hats, hpre⟩ := hOK
    exact ⟨by omega, hd1, hd20, rfl, hword, k, hk1, hka, hats, hpre⟩
  · exact absurd hent (by simp)

/-- C7 witness (for the amended theorem). -/
theorem mention_anchor_sound_witness :
    (⟨2, 5, "foo"⟩ : Entity) ∈ ExtractMentionsWithIndices "@@foo" ∧
      (1 ≤ (2 : Nat) ∧ 1 ≤ (5 : Nat) - 2 ∧ (5 : Nat) - 2 ≤ 20 ∧
        ("foo" : String).data =
          (("@@foo" : String).data.drop 2).take (5 - 2) ∧
        ("foo" : String).data.all isWordChar = true ∧
        ∃ k, 1 ≤ k ∧ k ≤ (2 : Nat) ∧
          (∀ i, i < k →
            ("@@foo" : String).data[(2 : Nat) - k + i]?.any isAtSign = true) ∧
          ((2 : Nat) - k = 0 ∨
            ("@@foo" : String).data[(2 : Nat) - k - 1]?.any
              (fun p => !inMentionSet p) = true ∨
            PrecededByRT ("@@foo" : String).data ((2 : Nat) - k))) :=
  ⟨by decide, mention_anchor_sound "@@foo" ⟨2, 5, "foo"⟩ (by decide)⟩

/-- C8: `ExtractReply` returns at most one value — the user name of the
reply candidate at the very start of the text, after skipping only
leading Unicode whitespace — and the empty string when there is no
accepted candidate; in particular any text containing neither `@` nor
`＠` gives the empty string. -/
theorem extract_reply_anchored (text : String) :
    (ExtractReply text ≠ "" →
      ∃ sp aSign rest, (∀ x ∈ sp, isUnicodeSpace x = true) ∧
        isAtSign aSign = true ∧
        text.data = sp ++ aSign :: ((ExtractReply text).data ++ rest) ∧
        1 ≤ (ExtractReply text).data.length ∧
        (ExtractReply text).data.length ≤ 20 ∧
        (ExtractReply text).data.all isWordChar = true) ∧
      (text.data.any isAtSign = false → ExtractReply text = "") := by
  have hunfold : ExtractReply text =
      if text.data.any isAtSign = true then
        match replyCandidate text.data with
        | some (s, e) =>
          if invalid_mention_match_end (text.data.drop e) = true then ""
          else ((text.data.drop s).take (e - s)).asString
        | none => ""
      else "" := rfl
  constructor
  · intro hne
    by_cases hg : text.data.any isAtSign = true
    swap
    · exact absurd (by rw [hunfold, if_neg hg]) hne
    cases hcand : replyCandidate text.data with
    | none => exact absurd (by rw [hunfold, if_pos hg, hcand]) hne
    | some se =>
      obtain ⟨s, e⟩ := se
      by_cases hinv : invalid_mention_match_end (text.data.drop e) = true
      · refine absurd ?_ hne
        rw [hunfold, if_pos hg, hcand]
        dsimp only
        rw [if_pos hinv]
      have heq : ExtractReply text = ((text.data.drop s).take (e - s)).asString := by
        rw [hunfold, if_pos hg, hcand]
        dsimp only
        rw [if_neg hinv]
      -- unpack the candidate
      rw [replyCandidate] at hcand
      cases hdw : text.data.dropWhile isUnicodeSpace with
      | nil => rw [hdw] at hcand; exact absurd hcand (by simp)
      | cons c rest0 =>
        rw [hdw] at hcand
        dsimp only at hcand
        by_cases hc : isAtSign c = true
        swap
        · rw [if_neg hc] at hcand; exact absurd hcand (by simp)
        rw [if_pos hc] at hcand
        by_cases hws0 : (rest0.takeWhile isWordChar).length = 0
        · rw [if_pos hws0] at hcand; exact absurd hcand (by simp)
        rw [if_neg hws0] at hcand
        rw [Option.some.injEq, Prod.mk.injEq] at hcand
        obtain ⟨hs, he⟩ := hcand
        have hsplit : text.data = text.data.takeWhile isUnicodeSpace ++ c :: rest0 := by
          conv_lhs => rw [← List.takeWhile_append_dropWhile isUnicodeSpace text.data]
          rw [hdw]
        have hdropS : text.data.drop s = rest0 := by
          rw [← hs]
          calc text.data.drop ((text.data.takeWhile isUnicodeSpace).length + 1)
              = (text.data.takeWhile isUnicodeSpace ++ c :: rest0).drop
                  ((text.data.takeWhile isUnicodeSpace).length + 1) := by
                rw [← hsplit]
            _ = (c :: rest0).drop 1 := drop_append_length _ _ 1
            _ = rest0 := rfl
        have hW1 : 1 ≤ (rest0.takeWhile isWordChar).length := by omega
        have hWle : (rest0.takeWhile isWordChar).length ≤ rest0.length :=
          takeWhile_length_le _ _
        have hes : e - s = min (rest0.takeWhile isWordChar).length 20 := by omega
        have hbody : (ExtractReply text).data = rest0.take (e - s) := by
          rw [heq, hdropS]
          rfl
        refine ⟨text.data.takeWhile isUnicodeSpace, c, rest0.drop (e - s),
          fun x hx => List.mem_takeWhile_imp hx, hc, ?_, ?_, ?_, ?_⟩
        · rw [hbody, List.take_append_drop]
          exact hsplit
        · rw [hbody, List.length_take]
          omega
        · rw [hbody, List.length_take]
          omega
        · rw [hbody, hes, take_of_takeWhile_le (p := isWordChar) _ _ (by omega)]
          rw [List.all_eq_true]
          intro x hx
          exact List.mem_takeWhile_imp (List.mem_of_mem_take hx)
  · intro h
    rw [hunfold, if_neg (by simp [h])]

/-- C8 witness. -/
theorem extract_reply_anchored_witness :
    (ExtractReply " @user hi" ≠ "" ∧
      ∃ sp aSign rest, (∀ x ∈ sp, isUnicodeSpace x = true) ∧
        isAtSign aSign = true ∧
        (" @user hi" : String).data =
          sp ++ aSign :: ((ExtractReply " @user hi").data ++ rest) ∧
        1 ≤ (ExtractReply " @user hi").data.length ∧
        (ExtractReply " @user hi").data.length ≤ 20 ∧
        (ExtractReply " @user hi").data.all isWordChar = true) ∧
      (("plain" : String).data.any isAtSign = false ∧ ExtractReply "plain" = "") :=
  ⟨⟨by decide, (extract_reply_anchored " @user hi").1 (by decide)⟩,
    ⟨by decide, (extract_reply_anchored "plain").2 (by decide)⟩⟩

/-- C10: an at-sign followed by more than 20 user-name characters is not
rejected but truncated: the single returned entity's value is the first
20 characters of the run (the post-match suffix check never rejects a
continuing ASCII user-name character). -/
theorem mention_truncation :
    (∀ run : List Char, (∀ x ∈ run, isWordChar x = true) → 21 ≤ run.length →
      ExtractMentionsWithIndices ⟨'@' :: run⟩ = [⟨1, 21, (run.take 20).asString⟩] ∧
        ExtractMentions ⟨'@' :: run⟩ = [(run.take 20).asString]) ∧
      (∀ (c : Char) (rest : List Char), isWordChar c = true →
        invalid_mention_match_end (c :: rest) = false) ∧
      ExtractMentions "@abcdefghijklmnopqrstuvwxyz" = ["abcdefghijklmnopqrst"] ∧
      ExtractMentionsWithIndices "@abcdefghijklmnopqrstuvwxyz" =
        [⟨1, 21, "abcdefghijklmnopqrst"⟩] := by
  refine ⟨?_, ?_, by decide, by decide⟩
  · intro run hw hlen
    have h1 : ExtractMentionsWithIndices ⟨'@' :: run⟩ =
        [⟨1, 21, (run.take 20).asString⟩] := by
      rw [ExtractMentionsWithIndices]
      exact mentionEntities_at_run hw hlen
    refine ⟨h1, ?_⟩
    rw [ExtractMentions, h1]
    rfl
  · intro c rest hc
    rw [invalid_mention_match_end]
    rw [not_atSign_of_wordChar hc, not_latinAccent_of_wordChar hc, word_ne_colon hc]
    simp

/-- C10 witness. -/
theorem mention_truncation_witness :
    (∀ x ∈ ("abcdefghijklmnopqrstuvwxyz" : String).data, isWordChar x = true) ∧
      21 ≤ ("abcdefghijklmnopqrstuvwxyz" : String).data.length ∧
      (ExtractMentionsWithIndices ⟨'@' :: ("abcdefghijklmnopqrstuvwxyz" : String).data⟩ =
          [⟨1, 21, (("abcdefghijklmnopqrstuvwxyz" : String).data.take 20).asString⟩] ∧
        ExtractMentions ⟨'@' :: ("abcdefghijklmnopqrstuvwxyz" : String).data⟩ =
          [(("abcdefghijklmnopqrstuvwxyz" : String).data.take 20).asString]) :=
  ⟨by decide, by decide,
    mention_truncation.1 ("abcdefghijklmnopqrstuvwxyz" : String).data
      (by decide) (by decide)⟩

end Hashtag
